import Mathlib

/-!
Verification of the Petrosian profile engine of the petrofit package.

The engine consumes a discretely sampled curve of growth (aligned lists of
aperture radii, aperture areas and enclosed fluxes) and derives the discrete
Petrosian index array, the Petrosian radius, the total-flux radius, the total
flux, fraction-of-flux radii, the half-light radius and concentration indices,
plus a correction-grid estimator for epsilon and the Sersic index.

The repository snapshot available here contains the documentation notebooks,
which describe the algorithms in detail, but not the `petrofit/petrosian.py`
module itself; every definition below whose doc comment starts with
`Modelled from the spec:` is therefore a faithful executable rendering of the
specification's description of that missing code.

Floating-point values are modelled as exact rationals.  The IEEE not-a-number
sentinel (and the non-finite infinities produced by dividing a nonzero float
by zero) are modelled by `Option ℚ`, with `none` standing for any non-finite
result and `some q` for the finite value `q`.
-/

/-- Modelled from the spec: the curve of growth owned by a `Petrosian` object
(`r_list`, `area_list`, `flux_list` in `petrofit.petrosian`, missing from the
snapshot): aligned lists of aperture radii, exact aperture areas and enclosed
fluxes. -/
structure CurveOfGrowth where
  r_list : List ℚ
  area_list : List ℚ
  flux_list : List ℚ
deriving Repr, DecidableEq

/-- Structural invariant of a curve of growth, from the spec's data model:
all three lists have one length `N ≥ 2`, radii are strictly increasing and
areas are strictly increasing (concentric apertures). -/
def WellFormed (c : CurveOfGrowth) : Prop :=
  c.area_list.length = c.r_list.length ∧
  c.flux_list.length = c.r_list.length ∧
  2 ≤ c.r_list.length ∧
  List.Chain' (· < ·) c.r_list ∧
  List.Chain' (· < ·) c.area_list

/-- Modelled from the spec: element `i` of the discretely computed Petrosian
index array (`calculate_petrosian` in `petrofit.petrosian`, missing from the
snapshot).  Element 0 is the not-a-number sentinel; element `i ≥ 1` is
`((flux[i]-flux[i-1])/(area[i]-area[i-1])) * (area[i]/flux[i])`.  A zero
area increment or a zero `flux[i]` makes the floating-point formula
non-finite, which the model renders as `none`. -/
def petrosianIdx (c : CurveOfGrowth) (i : ℕ) : Option ℚ :=
  if i = 0 ∨ c.r_list.length ≤ i then none
  else
    let a := c.area_list.getD i 0
    let ap := c.area_list.getD (i - 1) 0
    let f := c.flux_list.getD i 0
    let fp := c.flux_list.getD (i - 1) 0
    if a - ap = 0 ∨ f = 0 then none
    else some (((f - fp) / (a - ap)) * (a / f))

/-- The Petrosian index values at sample indices `1 .. N-1`. -/
def petroVals (c : CurveOfGrowth) : List (Option ℚ) :=
  (List.range (c.r_list.length - 1)).map (fun k => petrosianIdx c (k + 1))

/-- The sampled (radius, Petrosian index) points used for root finding:
radii `r[1] .. r[N-1]` paired with the defined Petrosian index values. -/
def petroPoints (c : CurveOfGrowth) : List (ℚ × Option ℚ) :=
  (c.r_list.drop 1).zip (petroVals c)

/-- The sampled (radius, flux) points of the curve of growth. -/
def fluxPoints (c : CurveOfGrowth) : List (ℚ × ℚ) :=
  c.r_list.zip c.flux_list

/-- Collects a list of sample points into `some` list of finite points, or
`none` as soon as one sample is non-finite (a non-finite sample poisons the
interpolated curve, as a floating-point NaN does). -/
def allSome : List (ℚ × Option ℚ) → Option (List (ℚ × ℚ))
  | [] => some []
  | (x, some y) :: rest => (allSome rest).map (fun l => (x, y) :: l)
  | (_, none) :: _ => none

/-- Modelled from the spec: linear interpolation of a sampled curve at an
arbitrary abscissa, returning the not-a-number sentinel (never extrapolating)
outside the sampled range. -/
def interp (x : ℚ) : List (ℚ × ℚ) → Option ℚ
  | [] => none
  | [(x1, y1)] => if x = x1 then some y1 else none
  | (x1, y1) :: (x2, y2) :: rest =>
      if x < x1 then none
      else if x ≤ x2 then some (y1 + (x - x1) * (y2 - y1) / (x2 - x1))
      else interp x ((x2, y2) :: rest)

/-- Modelled from the spec: derivative-free root finding on the linearly
interpolated sampled curve.  The scan walks the consecutive sample pairs and
returns the interpolated abscissa of the first segment whose endpoint values
bracket the target `t` (a sign change of `y - t`); if no sign change brackets
`t` within the sampled range it reports failure (`none`) rather than
extrapolate. -/
def invInterp (t : ℚ) : List (ℚ × ℚ) → Option ℚ
  | (x1, y1) :: (x2, y2) :: rest =>
      if (y1 - t) * (y2 - t) ≤ 0 then
        if y1 = y2 then some x1
        else some (x1 + (t - y1) * (x2 - x1) / (y2 - y1))
      else invInterp t ((x2, y2) :: rest)
  | _ => none

/-- Modelled from the spec: the `Petrosian` object of `petrofit.petrosian`
(missing from the snapshot): one curve of growth plus the two tunable scalars
`eta` (default 0.2) and `epsilon` (default 2). -/
structure Petro where
  cog : CurveOfGrowth
  eta : ℚ := 1 / 5
  epsilon : ℚ := 2
deriving Repr, DecidableEq

/-- Modelled from the spec: the Petrosian radius, the radius at which the
interpolated Petrosian-index-vs-radius curve equals `eta`. -/
def rPetro (c : CurveOfGrowth) (eta : ℚ) : Option ℚ :=
  (allSome (petroPoints c)).bind (invInterp eta)

/-- The interpolated Petrosian-index-vs-radius curve evaluated at radius `x`. -/
def petroInterp (c : CurveOfGrowth) (x : ℚ) : Option ℚ :=
  (allSome (petroPoints c)).bind (interp x)

/-- Petrosian radius of a profile. -/
def Petro.r_petrosian (p : Petro) : Option ℚ :=
  rPetro p.cog p.eta

/-- Modelled from the spec: the total-flux radius `r_petrosian * epsilon`. -/
def Petro.r_total_flux (p : Petro) : Option ℚ :=
  p.r_petrosian.map (fun rp => rp * p.epsilon)

/-- Modelled from the spec: the total flux, the flux interpolated at
`r_total_flux`; not-a-number when that radius falls outside the sampled
radius range. -/
def Petro.total_flux (p : Petro) : Option ℚ :=
  p.r_total_flux.bind (fun rt => interp rt (fluxPoints p.cog))

/-- Modelled from the spec: the fraction-of-flux radius, the radius at which
the interpolated flux curve equals `fraction * total_flux`, obtained by
inverting the flux-vs-radius curve; not-a-number when the target flux is not
bracketed by the sampled fluxes. -/
def Petro.fraction_flux_to_r (p : Petro) (fraction : ℚ) : Option ℚ :=
  p.total_flux.bind (fun t => invInterp (fraction * t) (fluxPoints p.cog))

/-- Modelled from the spec: the half-light radius, the fraction-of-flux
radius at fraction 1/2. -/
def Petro.r_half_light (p : Petro) : Option ℚ :=
  p.fraction_flux_to_r (1 / 2)

/-- Hard configuration errors raised by the engine. -/
inductive ConfigError where
  | fractionOrder
deriving Repr, DecidableEq

/-- Modelled from the spec: the two component radii of the concentration
index.  `fraction_2 ≤ fraction_1` is a configuration error raised
immediately; otherwise the two fraction-of-flux radii are returned, each
not-a-number when undefined. -/
def Petro.concentration_radii (p : Petro) (fraction_1 fraction_2 : ℚ) :
    Except ConfigError (Option ℚ × Option ℚ) :=
  if fraction_2 ≤ fraction_1 then .error .fractionOrder
  else .ok (p.fraction_flux_to_r fraction_1, p.fraction_flux_to_r fraction_2)

/-- Modelled from the spec: the concentration index
`5 * log10(r(fraction_2) / r(fraction_1))` together with its two component
radii.  The logarithm is real-valued, hence this definition is the one
noncomputable part of the model. -/
noncomputable def Petro.concentration_index (p : Petro) (fraction_1 fraction_2 : ℚ) :
    Except ConfigError (Option ℚ × Option ℚ × Option ℝ) :=
  match p.concentration_radii fraction_1 fraction_2 with
  | .error e => .error e
  | .ok (some r1, some r2) =>
      .ok (some r1, some r2, some (5 * Real.logb 10 ((r2 : ℝ) / (r1 : ℝ))))
  | .ok (o1, o2) => .ok (o1, o2, none)

/-- Slopes of consecutive segments of a sampled curve. -/
def slopeList : List (ℚ × ℚ) → List ℚ
  | (x1, y1) :: (x2, y2) :: rest => ((y2 - y1) / (x2 - x1)) :: slopeList ((x2, y2) :: rest)
  | _ => []

/-- A concave curve of growth: the segment slopes of the flux-vs-radius curve
are non-increasing. -/
def ConcaveCOG (c : CurveOfGrowth) : Prop :=
  List.Chain' (fun a b => b ≤ a) (slopeList (fluxPoints c))

/-- Modelled from the spec: one row of a loaded correction grid: a sampled
half-light radius `r_eff` together with its entries `(n, c2080pet, epsilon)`
for each sampled Sersic index. -/
structure GridRow where
  r_eff : ℚ
  entries : List (ℚ × ℚ × ℚ)
deriving Repr, DecidableEq

/-- Modelled from the spec: a loaded `PetrosianCorrection` grid, its rows
sorted by `r_eff`. -/
structure PetrosianCorrection where
  rows : List GridRow
deriving Repr, DecidableEq

/-- Modelled from the spec: within one grid row, the entry whose recorded
`c2080pet` is closest to the supplied concentration index (first wins ties). -/
def closestEntry (ci : ℚ) : List (ℚ × ℚ × ℚ) → Option (ℚ × ℚ × ℚ)
  | [] => none
  | e :: rest =>
      match closestEntry ci rest with
      | none => some e
      | some b => if |e.2.1 - ci| ≤ |b.2.1 - ci| then some e else some b

/-- The estimate a single grid row yields: `sel` projects the wanted field
(epsilon or Sersic index) out of the closest entry. -/
def rowEstimate (sel : ℚ × ℚ × ℚ → ℚ) (row : GridRow) (ci : ℚ) : Option ℚ :=
  (closestEntry ci row.entries).map sel

/-- Modelled from the spec: scan the sorted rows for the pair bracketing the
queried half-light radius and interpolate their per-row estimates; a query
beyond the last sampled row is clamped to that last row. -/
def estimateRows (sel : ℚ × ℚ × ℚ → ℚ) :
    GridRow → List GridRow → ℚ → ℚ → Option ℚ
  | row, [], _, ci => rowEstimate sel row ci
  | row, next :: rest, q, ci =>
      if q ≤ next.r_eff then
        match rowEstimate sel row ci, rowEstimate sel next ci with
        | some e1, some e2 =>
            if next.r_eff = row.r_eff then some e1
            else some (e1 + (q - row.r_eff) * (e2 - e1) / (next.r_eff - row.r_eff))
        | _, _ => none
      else estimateRows sel next rest q ci

/-- Modelled from the spec: grid lookup with boundary clamping: a query at or
below the first sampled `r_eff` row uses that edge row; a query beyond the
last row uses the last row; in between, the two bracketing rows are
interpolated.  Out-of-domain queries are clamped, never raised on. -/
def estimateVal (sel : ℚ × ℚ × ℚ → ℚ) (g : PetrosianCorrection) (q ci : ℚ) : Option ℚ :=
  match g.rows with
  | [] => none
  | first :: rest =>
      if q ≤ first.r_eff then rowEstimate sel first ci
      else estimateRows sel first rest q ci

/-- Modelled from the spec: `PetrosianCorrection.estimate_epsilon`. -/
def estimate_epsilon (g : PetrosianCorrection) (r_hl_pet c2080pet : ℚ) : Option ℚ :=
  estimateVal (fun e => e.2.2) g r_hl_pet c2080pet

/-- Modelled from the spec: `PetrosianCorrection.estimate_n`. -/
def estimate_n (g : PetrosianCorrection) (r_hl_pet c2080pet : ℚ) : Option ℚ :=
  estimateVal (fun e => e.1) g r_hl_pet c2080pet

/-- The record of derived quantities a `Petrosian` object may memoize. -/
structure Derived where
  r_petrosian : Option ℚ
  r_total_flux : Option ℚ
  total_flux : Option ℚ
  r_half_light : Option ℚ
  fraction_r : ℚ → Option ℚ
  conc_radii : ℚ → ℚ → Except ConfigError (Option ℚ × Option ℚ)

/-- All derived quantities as one pure function of the curve of growth and
the current `eta` and `epsilon`. -/
def computeDerived (c : CurveOfGrowth) (eta eps : ℚ) : Derived :=
  let p : Petro := ⟨c, eta, eps⟩
  { r_petrosian := p.r_petrosian
    r_total_flux := p.r_total_flux
    total_flux := p.total_flux
    r_half_light := p.r_half_light
    fraction_r := fun f => p.fraction_flux_to_r f
    conc_radii := fun f1 f2 => p.concentration_radii f1 f2 }

/-- Modelled from the spec: the observable state of a `Petrosian` object:
the immutable curve of growth, the two mutable tunables and an optional
memoized record of derived values. -/
structure PState where
  cog : CurveOfGrowth
  eta : ℚ
  epsilon : ℚ
  cache : Option Derived

/-- Construction of a `Petrosian` object: nothing is cached yet. -/
def mkPetrosian (c : CurveOfGrowth) (eta eps : ℚ) : PState :=
  ⟨c, eta, eps, none⟩

/-- Modelled from the spec: reading the derived quantities: a memoized record
is reused, otherwise the record is computed lazily and memoized. -/
def readDerived (s : PState) : Derived × PState :=
  match s.cache with
  | some d => (d, s)
  | none =>
      (computeDerived s.cog s.eta s.epsilon,
       { s with cache := some (computeDerived s.cog s.eta s.epsilon) })

/-- The operations a client may perform on a `Petrosian` object after
construction. -/
inductive POp where
  | setEta (v : ℚ)
  | setEpsilon (v : ℚ)
  | read

/-- Modelled from the spec: assigning `eta` or `epsilon` post-construction
invalidates the memoized derived values; a read memoizes them. -/
def stepOp (s : PState) : POp → PState
  | .setEta v => { s with eta := v, cache := none }
  | .setEpsilon v => { s with epsilon := v, cache := none }
  | .read => (readDerived s).2

/-- Run a sequence of operations on a `Petrosian` object. -/
def runOps (s : PState) (ops : List POp) : PState :=
  ops.foldl stepOp s

/-- Modelled from the spec: `copy.copy(p)`: the parameters and the memo of
the instance are duplicated while the underlying curve-of-growth data is
shared. -/
def copyP (s : PState) : PState :=
  ⟨s.cog, s.eta, s.epsilon, s.cache⟩

/-- A cache is coherent when it is empty or holds exactly the derived record
of the current parameters. -/
def CacheOk (s : PState) : Prop :=
  s.cache = none ∨ s.cache = some (computeDerived s.cog s.eta s.epsilon)

/-! ## Concrete example inputs

`cogS` is the scenario curve of growth given in the specification
(radius `[1,2,3,4,5]`, area `[3.14,12.6,28.3,50.3,78.5]`,
flux `[10,18,23,25,26]`). -/

/-- The specification's scenario curve of growth. -/
def cogS : CurveOfGrowth :=
  ⟨[1, 2, 3, 4, 5],
   [157 / 50, 63 / 5, 283 / 10, 503 / 10, 157 / 2],
   [10, 18, 23, 25, 26]⟩

/-- The scenario profile with `eta = 0.2` and `epsilon = 1`. -/
def pS1 : Petro := ⟨cogS, 1 / 5, 1⟩

/-- The scenario profile with the default `eta = 0.2` and `epsilon = 2`. -/
def pS2 : Petro := ⟨cogS, 1 / 5, 2⟩

/-- A well-formed curve of growth whose flux passes through zero: both
increments at index 1 are positive yet `flux[1] = 0`. -/
def cogZ : CurveOfGrowth := ⟨[1, 2], [1, 4], [-1, 0]⟩

/-- A strictly increasing, concave curve of growth whose fluxes are negative
over most of the sampled range. -/
def cogC : CurveOfGrowth :=
  ⟨[1, 11 / 10, 3], [1, 121 / 100, 9], [-24 / 25, -9 / 10, 1 / 10]⟩

/-- The profile over `cogC` with default `eta` and `epsilon`. -/
def pC : Petro := ⟨cogC, 1 / 5, 2⟩

/-- A small correction grid with rows sampled at `r_eff = 15, 20, 25`,
mirroring the sampling of the documentation's example grid. -/
def gridG : PetrosianCorrection :=
  ⟨[⟨15, [(1, 5 / 2, 3 / 2), (2, 3, 2), (4, 4, 7 / 2)]⟩,
    ⟨20, [(1, 13 / 5, 8 / 5), (2, 16 / 5, 21 / 10), (4, 21 / 5, 18 / 5)]⟩,
    ⟨25, [(1, 27 / 10, 17 / 10), (2, 33 / 10, 11 / 5), (4, 22 / 5, 37 / 10)]⟩]⟩

/-! ## Interpolation lemmas -/

theorem frac_bounds {y1 y2 t : ℚ} (hbr : (y1 - t) * (y2 - t) ≤ 0) (hne : y1 ≠ y2) :
    0 ≤ (t - y1) / (y2 - y1) ∧ (t - y1) / (y2 - y1) ≤ 1 := by
  have hd : y2 - y1 ≠ 0 := sub_ne_zero.mpr (Ne.symm hne)
  rcases mul_nonpos_iff.mp hbr with ⟨h1, h2⟩ | ⟨h1, h2⟩
  · have hlt : y2 - y1 < 0 := by
      rcases lt_or_eq_of_le (by linarith : y2 ≤ y1) with h | h
      · linarith
      · exact absurd h.symm hne
    constructor
    · exact div_nonneg_iff.mpr (Or.inr ⟨by linarith, hlt.le⟩)
    · have h3 : 1 - (t - y1) / (y2 - y1) = (y2 - t) / (y2 - y1) := by
        field_simp
      have h4 : 0 ≤ (y2 - t) / (y2 - y1) :=
        div_nonneg_iff.mpr (Or.inr ⟨by linarith, hlt.le⟩)
      linarith
  · have hgt : 0 < y2 - y1 := by
      rcases lt_or_eq_of_le (by linarith : y1 ≤ y2) with h | h
      · linarith
      · exact absurd h hne
    constructor
    · exact div_nonneg (by linarith) hgt.le
    · rw [div_le_one hgt]; linarith

theorem root_between {x1 x2 y1 y2 t : ℚ} (hx : x1 < x2)
    (hbr : (y1 - t) * (y2 - t) ≤ 0) (hne : y1 ≠ y2) :
    x1 ≤ x1 + (t - y1) * (x2 - x1) / (y2 - y1) ∧
      x1 + (t - y1) * (x2 - x1) / (y2 - y1) ≤ x2 := by
  obtain ⟨h0, h1⟩ := frac_bounds hbr hne
  have he : (t - y1) * (x2 - x1) / (y2 - y1) = (t - y1) / (y2 - y1) * (x2 - x1) := by
    ring
  constructor
  · rw [he]
    have := mul_nonneg h0 (sub_nonneg.mpr hx.le)
    linarith
  · rw [he]
    have := mul_le_mul_of_nonneg_right h1 (sub_nonneg.mpr hx.le)
    linarith

theorem invInterp_head_le {t : ℚ} :
    ∀ {ps : List (ℚ × ℚ)} {x1 y1 r : ℚ},
      List.Chain' (fun p q => p.1 < q.1) ((x1, y1) :: ps) →
      invInterp t ((x1, y1) :: ps) = some r → x1 ≤ r := by
  intro ps
  induction ps with
  | nil => intro x1 y1 r _ h; simp [invInterp] at h
  | cons b tl ih =>
    intro x1 y1 r hch h
    obtain ⟨x2, y2⟩ := b
    rw [List.chain'_cons] at hch
    obtain ⟨hx, hch2⟩ := hch
    simp only [invInterp] at h
    by_cases hbr : (y1 - t) * (y2 - t) ≤ 0
    · rw [if_pos hbr] at h
      by_cases hflat : y1 = y2
      · rw [if_pos hflat] at h
        cases h
        exact le_rfl
      · rw [if_neg hflat] at h
        cases h
        exact (root_between hx hbr hflat).1
    · rw [if_neg hbr] at h
      exact (lt_of_lt_of_le hx (ih hch2 h)).le

theorem invInterp_le_bound {t B : ℚ} :
    ∀ {ps : List (ℚ × ℚ)} {r : ℚ},
      List.Chain' (fun p q => p.1 < q.1) ps →
      invInterp t ps = some r → (∀ p ∈ ps, p.1 ≤ B) → r ≤ B := by
  intro ps
  induction ps with
  | nil => intro r _ h _; simp [invInterp] at h
  | cons a tl ih =>
    intro r hch h hB
    cases tl with
    | nil => simp [invInterp] at h
    | cons b tl2 =>
      obtain ⟨x1, y1⟩ := a
      obtain ⟨x2, y2⟩ := b
      rw [List.chain'_cons] at hch
      obtain ⟨hx, hch2⟩ := hch
      simp only [invInterp] at h
      by_cases hbr : (y1 - t) * (y2 - t) ≤ 0
      · rw [if_pos hbr] at h
        by_cases hflat : y1 = y2
        · rw [if_pos hflat] at h
          have hr : r = x1 := (Option.some.inj h).symm
          subst hr
          exact hB (r, y1) (List.mem_cons_self _ _)
        · rw [if_neg hflat] at h
          have hr : r = x1 + (t - y1) * (x2 - x1) / (y2 - y1) := (Option.some.inj h).symm
          subst hr
          exact le_trans (root_between hx hbr hflat).2
            (hB (x2, y2) (List.mem_cons_of_mem _ (List.mem_cons_self _ _)))
      · rw [if_neg hbr] at h
        exact ih hch2 h (fun p hp => hB p (List.mem_cons_of_mem _ hp))

theorem chain_le_getLast {q : ℚ × ℚ} :
    ∀ {ps : List (ℚ × ℚ)},
      List.Chain' (fun p q => p.1 < q.1) ps → ps.getLast? = some q →
      ∀ p ∈ ps, p.1 ≤ q.1 := by
  intro ps
  induction ps with
  | nil => intro _ h; simp at h
  | cons a tl ih =>
    intro hch hlast p hp
    cases tl with
    | nil =>
      simp at hlast
      rcases List.mem_singleton.mp hp with rfl
      rw [← hlast]
    | cons b tl2 =>
      rw [List.getLast?_cons_cons] at hlast
      rw [List.chain'_cons] at hch
      obtain ⟨hab, hch2⟩ := hch
      rcases List.mem_cons.mp hp with rfl | hp2
      · exact (lt_of_lt_of_le hab (ih hch2 hlast b (List.mem_cons_self _ _))).le
      · exact ih hch2 hlast p hp2

theorem chain_snd_head_le :
    ∀ {tl : List (ℚ × ℚ)} {a : ℚ × ℚ},
      List.Chain' (fun p q => p.2 < q.2) (a :: tl) → ∀ p ∈ a :: tl, a.2 ≤ p.2 := by
  intro tl
  induction tl with
  | nil =>
    intro a _ p hp
    rcases List.mem_singleton.mp hp with rfl
    exact le_rfl
  | cons b tl2 ih =>
    intro a hch p hp
    rw [List.chain'_cons] at hch
    obtain ⟨hab, hch2⟩ := hch
    rcases List.mem_cons.mp hp with rfl | hp2
    · exact le_rfl
    · exact le_trans hab.le (ih hch2 p hp2)

theorem interp_self {x1 y1 : ℚ} {ps : List (ℚ × ℚ)}
    (hch : List.Chain' (fun p q => p.1 < q.1) ((x1, y1) :: ps)) :
    interp x1 ((x1, y1) :: ps) = some y1 := by
  cases ps with
  | nil => simp [interp]
  | cons b tl =>
    obtain ⟨x2, y2⟩ := b
    rw [List.chain'_cons] at hch
    simp [interp, hch.1.le, sub_self]

theorem interp_none_of_lt {x x1 y1 : ℚ} {ps : List (ℚ × ℚ)} (h : x < x1) :
    interp x ((x1, y1) :: ps) = none := by
  cases ps with
  | nil => simp [interp, ne_of_lt h]
  | cons b tl =>
    obtain ⟨x2, y2⟩ := b
    simp [interp, h]

theorem interp_none_of_getLast_lt {x : ℚ} {q : ℚ × ℚ} :
    ∀ {ps : List (ℚ × ℚ)},
      List.Chain' (fun p q => p.1 < q.1) ps → ps.getLast? = some q → q.1 < x →
      interp x ps = none := by
  intro ps
  induction ps with
  | nil => intro _ h _; simp at h
  | cons a tl ih =>
    intro hch hlast hlt
    cases tl with
    | nil =>
      obtain ⟨x1, y1⟩ := a
      simp at hlast
      rw [← hlast] at hlt
      simp [interp, (ne_of_gt hlt)]
    | cons b tl2 =>
      obtain ⟨x1, y1⟩ := a
      obtain ⟨x2, y2⟩ := b
      rw [List.getLast?_cons_cons] at hlast
      rw [List.chain'_cons] at hch
      obtain ⟨hab, hch2⟩ := hch
      have hbq : x2 ≤ q.1 :=
        chain_le_getLast hch2 hlast (x2, y2) (List.mem_cons_self _ _)
      simp only [interp]
      rw [if_neg (not_lt.mpr (by linarith : x1 ≤ x)),
        if_neg (not_le.mpr (by linarith : x2 < x))]
      exact ih hch2 hlast hlt

theorem interp_invInterp {t : ℚ} :
    ∀ {ps : List (ℚ × ℚ)} {r : ℚ},
      List.Chain' (fun p q => p.1 < q.1) ps →
      invInterp t ps = some r → interp r ps = some t := by
  intro ps
  induction ps with
  | nil => intro r _ h; simp [invInterp] at h
  | cons a tl ih =>
    intro r hch h
    cases tl with
    | nil => simp [invInterp] at h
    | cons b tl2 =>
      obtain ⟨x1, y1⟩ := a
      obtain ⟨x2, y2⟩ := b
      have hch' := hch
      rw [List.chain'_cons] at hch'
      obtain ⟨hx, hch2⟩ := hch'
      simp only [invInterp] at h
      by_cases hbr : (y1 - t) * (y2 - t) ≤ 0
      · rw [if_pos hbr] at h
        by_cases hflat : y1 = y2
        · rw [if_pos hflat] at h
          have hr : r = x1 := (Option.some.inj h).symm
          subst hr
          have h0 : (y1 - t) * (y1 - t) ≤ 0 := by
            rw [hflat] at hbr ⊢
            exact hbr
          have hyt : y1 = t := by nlinarith [mul_self_nonneg (y1 - t)]
          rw [interp_self hch, hyt]
        · rw [if_neg hflat] at h
          have hr : r = x1 + (t - y1) * (x2 - x1) / (y2 - y1) := (Option.some.inj h).symm
          obtain ⟨hr1, hr2⟩ := root_between hx hbr hflat
          rw [← hr] at hr1 hr2
          simp only [interp]
          rw [if_neg (not_lt.mpr hr1), if_pos hr2, Option.some.injEq]
          have hxne : x2 - x1 ≠ 0 := sub_ne_zero.mpr (ne_of_gt hx)
          have hyne : y2 - y1 ≠ 0 := sub_ne_zero.mpr (Ne.symm hflat)
          subst hr
          field_simp
          ring
      · rw [if_neg hbr] at h
        have hmain := ih hch2 h
        have hx2r : x2 ≤ r := invInterp_head_le hch2 h
        simp only [interp]
        rw [if_neg (not_lt.mpr (by linarith : x1 ≤ r))]
        by_cases hrx2 : r ≤ x2
        · have hreq : r = x2 := le_antisymm hrx2 hx2r
          have hsel := interp_self hch2
          rw [hreq] at hmain
          rw [hmain] at hsel
          have hyt : t = y2 := Option.some.inj hsel
          rw [if_pos hrx2, Option.some.injEq, hreq]
          have hxne : x2 - x1 ≠ 0 := sub_ne_zero.mpr (ne_of_gt hx)
          rw [mul_div_cancel_left₀ _ hxne]
          linarith
        · rw [if_neg hrx2]
          exact hmain

theorem invInterp_none_of_no_bracket {t : ℚ} :
    ∀ {ps : List (ℚ × ℚ)},
      List.Chain' (fun a b => 0 < (a.2 - t) * (b.2 - t)) ps →
      invInterp t ps = none := by
  intro ps
  induction ps with
  | nil => simp [invInterp]
  | cons a tl ih =>
    intro hch
    cases tl with
    | nil => simp [invInterp]
    | cons b tl2 =>
      obtain ⟨x1, y1⟩ := a
      obtain ⟨x2, y2⟩ := b
      rw [List.chain'_cons] at hch
      simp only [invInterp]
      rw [if_neg (not_le.mpr hch.1)]
      exact ih hch.2

theorem invInterp_none_of_above {t : ℚ} :
    ∀ {ps : List (ℚ × ℚ)}, (∀ p ∈ ps, t < p.2) → invInterp t ps = none := by
  intro ps
  induction ps with
  | nil => simp [invInterp]
  | cons a tl ih =>
    intro hab
    cases tl with
    | nil => simp [invInterp]
    | cons b tl2 =>
      obtain ⟨x1, y1⟩ := a
      obtain ⟨x2, y2⟩ := b
      have h1 : t < y1 := hab (x1, y1) (List.mem_cons_self _ _)
      have h2 : t < y2 := hab (x2, y2) (List.mem_cons_of_mem _ (List.mem_cons_self _ _))
      simp only [invInterp]
      rw [if_neg (not_le.mpr (by nlinarith))]
      exact ih (fun p hp => hab p (List.mem_cons_of_mem _ hp))

theorem invInterp_none_of_below {t : ℚ} :
    ∀ {ps : List (ℚ × ℚ)}, (∀ p ∈ ps, p.2 < t) → invInterp t ps = none := by
  intro ps
  induction ps with
  | nil => simp [invInterp]
  | cons a tl ih =>
    intro hab
    cases tl with
    | nil => simp [invInterp]
    | cons b tl2 =>
      obtain ⟨x1, y1⟩ := a
      obtain ⟨x2, y2⟩ := b
      have h1 : y1 < t := hab (x1, y1) (List.mem_cons_self _ _)
      have h2 : y2 < t := hab (x2, y2) (List.mem_cons_of_mem _ (List.mem_cons_self _ _))
      simp only [invInterp]
      rw [if_neg (not_le.mpr (by nlinarith))]
      exact ih (fun p hp => hab p (List.mem_cons_of_mem _ hp))

theorem invInterp_mono {t1 t2 : ℚ} (hle : t1 ≤ t2) :
    ∀ {ps : List (ℚ × ℚ)} {r1 r2 : ℚ},
      List.Chain' (fun p q => p.1 < q.1) ps →
      List.Chain' (fun p q => p.2 < q.2) ps →
      invInterp t1 ps = some r1 → invInterp t2 ps = some r2 → r1 ≤ r2 := by
  intro ps
  induction ps with
  | nil => intro r1 r2 _ _ h1 _; simp [invInterp] at h1
  | cons a tl ih =>
    intro r1 r2 hchx hchy h1 h2
    cases tl with
    | nil => simp [invInterp] at h1
    | cons b tl2 =>
      obtain ⟨x1, y1⟩ := a
      obtain ⟨x2, y2⟩ := b
      have hchy' := hchy
      rw [List.chain'_cons] at hchx hchy'
      obtain ⟨hx, hchx2⟩ := hchx
      obtain ⟨hy, hchy2⟩ := hchy'
      have hflat : y1 ≠ y2 := ne_of_lt hy
      simp only [invInterp] at h1 h2
      by_cases hbr1 : (y1 - t1) * (y2 - t1) ≤ 0
      · rw [if_pos hbr1, if_neg hflat] at h1
        have hr1 : r1 = x1 + (t1 - y1) * (x2 - x1) / (y2 - y1) := (Option.some.inj h1).symm
        by_cases hbr2 : (y1 - t2) * (y2 - t2) ≤ 0
        · rw [if_pos hbr2, if_neg hflat] at h2
          have hr2 : r2 = x1 + (t2 - y1) * (x2 - x1) / (y2 - y1) := (Option.some.inj h2).symm
          have hdiff : r2 - r1 = (t2 - t1) * (x2 - x1) / (y2 - y1) := by
            rw [hr1, hr2]
            have hyne : y2 - y1 ≠ 0 := sub_ne_zero.mpr (ne_of_gt hy)
            field_simp
            ring
          have hpos : 0 ≤ (t2 - t1) * (x2 - x1) / (y2 - y1) :=
            div_nonneg (mul_nonneg (by linarith) (by linarith)) (by linarith)
          linarith
        · rw [if_neg hbr2] at h2
          have hup : r1 ≤ x2 := by
            rw [hr1]
            exact (root_between hx hbr1 hflat).2
          exact le_trans hup (invInterp_head_le hchx2 h2)
      · by_cases hbr2 : (y1 - t2) * (y2 - t2) ≤ 0
        · exfalso
          rcases mul_nonpos_iff.mp hbr2 with ⟨hA, hB⟩ | ⟨hA, hB⟩
          · nlinarith
          · by_cases ht1y1 : y1 ≤ t1
            · exact hbr1 (mul_nonpos_iff.mpr (Or.inr ⟨by linarith, by linarith⟩))
            · push_neg at ht1y1
              rw [if_neg hbr1] at h1
              have hnone : invInterp t1 ((x2, y2) :: tl2) = none :=
                invInterp_none_of_above (fun p hp => by
                  have := chain_snd_head_le hchy2 p hp
                  simp only at this
                  linarith)
              rw [hnone] at h1
              exact Option.noConfusion h1
        · rw [if_neg hbr1] at h1
          rw [if_neg hbr2] at h2
          exact ih hchx2 hchy2 h1 h2

theorem allSome_map_fst :
    ∀ {l : List (ℚ × Option ℚ)} {pts : List (ℚ × ℚ)},
      allSome l = some pts → pts.map Prod.fst = l.map Prod.fst := by
  intro l
  induction l with
  | nil =>
    intro pts h
    simp [allSome] at h
    subst h
    rfl
  | cons a tl ih =>
    intro pts h
    obtain ⟨x, o⟩ := a
    cases o with
    | none => simp [allSome] at h
    | some y =>
      simp only [allSome] at h
      cases hAS : allSome tl with
      | none => rw [hAS] at h; simp at h
      | some pts' =>
        rw [hAS] at h
        simp at h
        subst h
        simp [ih hAS]

/-! ## Plumbing: projections of the sampled point lists -/

theorem fluxPoints_map_fst (c : CurveOfGrowth)
    (h : c.flux_list.length = c.r_list.length) :
    (fluxPoints c).map Prod.fst = c.r_list :=
  List.map_fst_zip _ _ h.ge

theorem fluxPoints_map_snd (c : CurveOfGrowth)
    (h : c.flux_list.length = c.r_list.length) :
    (fluxPoints c).map Prod.snd = c.flux_list :=
  List.map_snd_zip _ _ h.le

theorem petroPoints_map_fst (c : CurveOfGrowth) :
    (petroPoints c).map Prod.fst = c.r_list.drop 1 :=
  List.map_fst_zip _ _ (by simp [petroVals])

theorem chain_fst_of_map {pts : List (ℚ × ℚ)} {L : List ℚ}
    (hm : pts.map Prod.fst = L) (hch : List.Chain' (· < ·) L) :
    List.Chain' (fun p q : ℚ × ℚ => p.1 < q.1) pts := by
  rw [← hm] at hch
  exact (List.chain'_map Prod.fst).mp hch

theorem chain_snd_of_map {pts : List (ℚ × ℚ)} {L : List ℚ}
    (hm : pts.map Prod.snd = L) (hch : List.Chain' (· < ·) L) :
    List.Chain' (fun p q : ℚ × ℚ => p.2 < q.2) pts := by
  rw [← hm] at hch
  exact (List.chain'_map Prod.snd).mp hch

theorem head_fst_of_map {pts : List (ℚ × ℚ)} {L : List ℚ} {a : ℚ}
    (hm : pts.map Prod.fst = L) (ha : L.head? = some a) :
    ∃ q tl, pts = q :: tl ∧ q.1 = a := by
  cases pts with
  | nil =>
    rw [← hm] at ha
    simp at ha
  | cons q tl =>
    rw [← hm] at ha
    simp at ha
    exact ⟨q, tl, rfl, ha⟩

theorem getLast_fst_of_map {pts : List (ℚ × ℚ)} {L : List ℚ} {a : ℚ}
    (hm : pts.map Prod.fst = L) (ha : L.getLast? = some a) :
    ∃ ql, pts.getLast? = some ql ∧ ql.1 = a := by
  rw [← hm, List.getLast?_map] at ha
  cases hq : pts.getLast? with
  | none => rw [hq] at ha; simp at ha
  | some ql =>
    rw [hq] at ha
    simp at ha
    exact ⟨ql, rfl, ha⟩

/-! ## Claim C1: the discrete Petrosian index array -/

/-- C1 (amended): for every curve of growth, element 0 of the discrete
Petrosian index array is the not-a-number sentinel; element `i` for
`1 ≤ i < N` equals `((flux[i]-flux[i-1])/(area[i]-area[i-1]))*(area[i]/flux[i])`
whenever its two divisors are nonzero; and element `i` is finite when the
area and flux increments at `i` are both positive and `flux[i]` is nonzero. -/
theorem petrosian_index_spec (c : CurveOfGrowth) :
    petrosianIdx c 0 = none ∧
    ∀ i, 1 ≤ i → i < c.r_list.length →
      (c.area_list.getD i 0 - c.area_list.getD (i - 1) 0 ≠ 0 →
        c.flux_list.getD i 0 ≠ 0 →
        petrosianIdx c i =
          some (((c.flux_list.getD i 0 - c.flux_list.getD (i - 1) 0) /
                 (c.area_list.getD i 0 - c.area_list.getD (i - 1) 0)) *
                (c.area_list.getD i 0 / c.flux_list.getD i 0))) ∧
      (0 < c.area_list.getD i 0 - c.area_list.getD (i - 1) 0 →
        0 < c.flux_list.getD i 0 - c.flux_list.getD (i - 1) 0 →
        c.flux_list.getD i 0 ≠ 0 →
        (petrosianIdx c i).isSome = true) := by
  constructor
  · simp [petrosianIdx]
  · intro i h1 h2
    have hcond : ¬(i = 0 ∨ c.r_list.length ≤ i) := by
      push_neg
      omega
    constructor
    · intro hda hf
      simp only [petrosianIdx, if_neg hcond]
      rw [if_neg (by push_neg; exact ⟨hda, hf⟩)]
    · intro hda _ hf
      simp only [petrosianIdx, if_neg hcond]
      rw [if_neg (by push_neg; exact ⟨ne_of_gt hda, hf⟩)]
      rfl

/-- C1 counterexample: on the well-formed curve `cogZ` the area and flux
increments at index 1 are both positive, yet element 1 of the discrete
Petrosian index array is not finite (the formula divides by `flux[1] = 0`),
refuting the claim that positive increments alone make the element finite. -/
theorem petrosian_index_cex :
    WellFormed cogZ ∧
    0 < cogZ.area_list.getD 1 0 - cogZ.area_list.getD 0 0 ∧
    0 < cogZ.flux_list.getD 1 0 - cogZ.flux_list.getD 0 0 ∧
    petrosianIdx cogZ 1 = none := by
  refine ⟨?_, by norm_num [cogZ], by norm_num [cogZ], by norm_num [petrosianIdx, cogZ]⟩
  constructor
  · norm_num [cogZ]
  refine ⟨by norm_num [cogZ], by norm_num [cogZ], ?_, ?_⟩
  · norm_num [cogZ, List.chain'_cons]
  · norm_num [cogZ, List.chain'_cons]

/-- C1 witness: the amended statement applied to the scenario curve at
index 1. -/
theorem petrosian_index_witness :
    petrosianIdx cogS 0 = none ∧
    petrosianIdx cogS 1 = some (280 / 473) ∧
    (petrosianIdx cogS 1).isSome = true := by
  obtain ⟨h0, hforall⟩ := petrosian_index_spec cogS
  obtain ⟨hf, hs⟩ := hforall 1 (by norm_num) (by norm_num [cogS])
  refine ⟨h0, ?_, ?_⟩
  · rw [hf (by norm_num [cogS]) (by norm_num [cogS])]
    norm_num [cogS]
  · exact hs (by norm_num [cogS]) (by norm_num [cogS]) (by norm_num [cogS])

/-! ## Claim C2: the Petrosian radius -/

/-- C2: whenever the Petrosian radius operation returns a radius, that radius
lies inside the sampled radius range and the interpolated
Petrosian-index-vs-radius curve equals `eta` there; and whenever no sign
change of `index - eta` brackets `eta` across the sampled points, the
operation returns the not-a-number sentinel, so no radius outside
`[min(radius), max(radius)]` is ever produced. -/
theorem r_petrosian_spec (p : Petro) (rmin rmax : ℚ)
    (hwf : WellFormed p.cog)
    (hmin : p.cog.r_list.head? = some rmin)
    (hmax : p.cog.r_list.getLast? = some rmax) :
    (∀ r, p.r_petrosian = some r →
        rmin ≤ r ∧ r ≤ rmax ∧ petroInterp p.cog r = some p.eta) ∧
    (∀ pts, allSome (petroPoints p.cog) = some pts →
        List.Chain' (fun a b => 0 < (a.2 - p.eta) * (b.2 - p.eta)) pts →
        p.r_petrosian = none) := by
  obtain ⟨halen, hflen, hN, hrch, hach⟩ := hwf
  constructor
  · intro r hr
    rw [Petro.r_petrosian, rPetro] at hr
    cases hAS : allSome (petroPoints p.cog) with
    | none => rw [hAS] at hr; simp at hr
    | some pts =>
      rw [hAS] at hr
      simp only [Option.some_bind] at hr
      have hmfst : pts.map Prod.fst = p.cog.r_list.drop 1 :=
        (allSome_map_fst hAS).trans (petroPoints_map_fst p.cog)
      have hdch : List.Chain' (· < ·) (p.cog.r_list.drop 1) := by
        rw [List.drop_one]
        exact hrch.tail
      have hch : List.Chain' (fun a b : ℚ × ℚ => a.1 < b.1) pts :=
        chain_fst_of_map hmfst hdch
      obtain ⟨rl0, rtl, hrl⟩ : ∃ rl0 rtl, p.cog.r_list = rl0 :: rtl := by
        cases hc : p.cog.r_list with
        | nil => rw [hc] at hmin; simp at hmin
        | cons a tl => exact ⟨a, tl, rfl⟩
      have hrl0 : rl0 = rmin := by
        rw [hrl] at hmin
        simpa using hmin
      obtain ⟨rl1, rtl2, hrtl⟩ : ∃ rl1 rtl2, rtl = rl1 :: rtl2 := by
        cases hc : rtl with
        | nil => rw [hrl, hc] at hN; simp at hN
        | cons a tl => exact ⟨a, tl, rfl⟩
      have hdrop : p.cog.r_list.drop 1 = rl1 :: rtl2 := by
        rw [hrl, hrtl]
        rfl
      have hminlt : rmin < rl1 := by
        rw [hrl, hrtl, List.chain'_cons] at hrch
        rw [← hrl0]
        exact hrch.1
      obtain ⟨q0, ptl, hpts, hq0⟩ :=
        head_fst_of_map hmfst (by rw [hdrop]; rfl)
      have hlow : rl1 ≤ r := by
        rw [hpts] at hch hr
        have := invInterp_head_le hch hr
        rw [← hq0]
        exact this
      have hlast1 : (p.cog.r_list.drop 1).getLast? = some rmax := by
        rw [hdrop]
        rw [hrl, hrtl, List.getLast?_cons_cons] at hmax
        exact hmax
      obtain ⟨ql, hql, hql1⟩ := getLast_fst_of_map hmfst hlast1
      have hbound : ∀ pq ∈ pts, pq.1 ≤ rmax := by
        intro pq hpq
        rw [← hql1]
        exact chain_le_getLast hch hql pq hpq
      refine ⟨by linarith, invInterp_le_bound hch hr hbound, ?_⟩
      rw [petroInterp, hAS]
      simp only [Option.some_bind]
      exact interp_invInterp hch hr
  · intro pts hAS hnb
    rw [Petro.r_petrosian, rPetro, hAS]
    simp only [Option.some_bind]
    exact invInterp_none_of_no_bracket hnb

/-- C2 witness: the theorem applied to the scenario profile, whose sampled
radius range is `[1, 5]`. -/
theorem r_petrosian_witness :
    (∀ r, pS1.r_petrosian = some r →
        1 ≤ r ∧ r ≤ 5 ∧ petroInterp pS1.cog r = some pS1.eta) ∧
    (∀ pts, allSome (petroPoints pS1.cog) = some pts →
        List.Chain' (fun a b => 0 < (a.2 - pS1.eta) * (b.2 - pS1.eta)) pts →
        pS1.r_petrosian = none) :=
  r_petrosian_spec pS1 1 5
    (by
      refine ⟨by norm_num [pS1, cogS], by norm_num [pS1, cogS], by norm_num [pS1, cogS], ?_, ?_⟩
      · norm_num [pS1, cogS, List.chain'_cons]
      · norm_num [pS1, cogS, List.chain'_cons])
    (by norm_num [pS1, cogS])
    (by norm_num [pS1, cogS, List.getLast?_cons_cons])

/-! ## Claim C3: the total-flux radius and epsilon -/

/-- C3: when the Petrosian radius is finite, the total-flux radius equals
`r_petrosian * epsilon`; whenever that product falls outside the sampled
radius range the total flux is the not-a-number sentinel; and the Petrosian
radius itself is the same finite value for every choice of `epsilon`. -/
theorem r_total_flux_spec (p : Petro) (rp rmin rmax : ℚ)
    (hwf : WellFormed p.cog)
    (hrp : p.r_petrosian = some rp)
    (hmin : p.cog.r_list.head? = some rmin)
    (hmax : p.cog.r_list.getLast? = some rmax) :
    p.r_total_flux = some (rp * p.epsilon) ∧
    (rp * p.epsilon < rmin ∨ rmax < rp * p.epsilon → p.total_flux = none) ∧
    (∀ e : ℚ, (Petro.mk p.cog p.eta e).r_petrosian = some rp) := by
  obtain ⟨halen, hflen, hN, hrch, hach⟩ := hwf
  refine ⟨?_, ?_, ?_⟩
  · rw [Petro.r_total_flux, hrp]
    rfl
  · intro hout
    rw [Petro.total_flux, Petro.r_total_flux, hrp]
    simp only [Option.map_some', Option.some_bind]
    have hmfst := fluxPoints_map_fst p.cog hflen
    rcases hout with hlow | hhigh
    · obtain ⟨⟨qx, qy⟩, tl, hfp, hq⟩ := head_fst_of_map hmfst hmin
      rw [hfp]
      exact interp_none_of_lt (by simp only at hq; rw [hq]; exact hlow)
    · obtain ⟨ql, hql, hql1⟩ := getLast_fst_of_map hmfst hmax
      exact interp_none_of_getLast_lt (chain_fst_of_map hmfst hrch) hql
        (by rw [hql1]; exact hhigh)
  · intro e
    exact hrp

/-- C3 witness: on the scenario profile with the default `epsilon = 2`, the
Petrosian radius is finite, `r_total_flux` is twice it, and since that value
exceeds the largest sampled radius 5, the total flux is not-a-number while
the Petrosian radius is unaffected by `epsilon`. -/
theorem r_total_flux_witness :
    pS2.r_total_flux = some (8129951 / 2074917 * pS2.epsilon) ∧
    (8129951 / 2074917 * pS2.epsilon < 1 ∨ (5 : ℚ) < 8129951 / 2074917 * pS2.epsilon →
      pS2.total_flux = none) ∧
    (∀ e : ℚ, (Petro.mk pS2.cog pS2.eta e).r_petrosian = some (8129951 / 2074917)) :=
  r_total_flux_spec pS2 (8129951 / 2074917) 1 5
    (by
      refine ⟨by norm_num [pS2, cogS], by norm_num [pS2, cogS], by norm_num [pS2, cogS], ?_, ?_⟩
      · norm_num [pS2, cogS, List.chain'_cons]
      · norm_num [pS2, cogS, List.chain'_cons])
    (by
      norm_num [Petro.r_petrosian, rPetro, pS2, cogS, petroPoints, petroVals,
        petrosianIdx, allSome, invInterp, List.range_succ])
    (by norm_num [pS2, cogS])
    (by norm_num [pS2, cogS, List.getLast?_cons_cons])

/-! ## Claim C4: fraction-of-flux radii and out-of-range targets -/

/-- C4 (amended): the fraction-of-flux radius is the not-a-number sentinel
whenever the target flux `fraction * total_flux` lies strictly outside the
range of sampled flux values, and any radius it does return lies inside the
sampled radius domain.  (A fraction greater than 1 does not by itself force
the sentinel: its target can still lie inside the sampled flux range.) -/
theorem fraction_flux_to_r_spec (p : Petro) (T f rmin rmax : ℚ)
    (hwf : WellFormed p.cog)
    (hT : p.total_flux = some T)
    (hmin : p.cog.r_list.head? = some rmin)
    (hmax : p.cog.r_list.getLast? = some rmax) :
    ((∀ q ∈ fluxPoints p.cog, f * T < q.2) ∨ (∀ q ∈ fluxPoints p.cog, q.2 < f * T) →
        p.fraction_flux_to_r f = none) ∧
    (∀ r, p.fraction_flux_to_r f = some r → rmin ≤ r ∧ r ≤ rmax) := by
  obtain ⟨halen, hflen, hN, hrch, hach⟩ := hwf
  have hunf : p.fraction_flux_to_r f = invInterp (f * T) (fluxPoints p.cog) := by
    rw [Petro.fraction_flux_to_r, hT]
    rfl
  have hmfst := fluxPoints_map_fst p.cog hflen
  have hch : List.Chain' (fun a b : ℚ × ℚ => a.1 < b.1) (fluxPoints p.cog) :=
    chain_fst_of_map hmfst hrch
  constructor
  · intro hout
    rw [hunf]
    rcases hout with habove | hbelow
    · exact invInterp_none_of_above habove
    · exact invInterp_none_of_below hbelow
  · intro r hr
    rw [hunf] at hr
    obtain ⟨⟨qx, qy⟩, tl, hfp, hq⟩ := head_fst_of_map hmfst hmin
    constructor
    · rw [hfp] at hr hch
      simp only at hq
      rw [← hq]
      exact invInterp_head_le hch hr
    · obtain ⟨ql, hql, hql1⟩ := getLast_fst_of_map hmfst hmax
      refine invInterp_le_bound hch hr ?_
      intro pq hpq
      rw [← hql1]
      exact chain_le_getLast hch hql pq hpq

/-- C4 counterexample: on the scenario profile with `epsilon = 1` the total
flux is about 24.84 while the largest sampled flux is 26, so the fraction
1.01 has target 1.01 * total_flux within the sampled flux range and
`fraction_flux_to_r 1.01` returns a radius instead of the not-a-number
sentinel, refuting the claim that every fraction above 1 yields the
sentinel. -/
theorem fraction_flux_cex :
    (1 : ℚ) < 101 / 100 ∧
    pS1.fraction_flux_to_r (101 / 100) = some (847556891 / 207491700) := by
  constructor
  · norm_num
  · norm_num [Petro.fraction_flux_to_r, Petro.total_flux, Petro.r_total_flux,
      Petro.r_petrosian, rPetro, pS1, cogS, petroPoints, petroVals, petrosianIdx,
      allSome, invInterp, interp, fluxPoints, List.range_succ]

/-- C4 witness: the amended statement applied to the scenario profile with
`epsilon = 1` and fraction `3/2`, whose target flux exceeds every sampled
flux value, so the sentinel is returned. -/
theorem fraction_flux_to_r_witness :
    ((∀ q ∈ fluxPoints pS1.cog, (3 / 2 : ℚ) * (51533491 / 2074917) < q.2) ∨
      (∀ q ∈ fluxPoints pS1.cog, q.2 < (3 / 2 : ℚ) * (51533491 / 2074917)) →
        pS1.fraction_flux_to_r (3 / 2) = none) ∧
    (∀ r, pS1.fraction_flux_to_r (3 / 2) = some r → 1 ≤ r ∧ r ≤ 5) :=
  fraction_flux_to_r_spec pS1 (51533491 / 2074917) (3 / 2) 1 5
    (by
      refine ⟨by norm_num [pS1, cogS], by norm_num [pS1, cogS], by norm_num [pS1, cogS], ?_, ?_⟩
      · norm_num [pS1, cogS, List.chain'_cons]
      · norm_num [pS1, cogS, List.chain'_cons])
    (by
      norm_num [Petro.total_flux, Petro.r_total_flux, Petro.r_petrosian, rPetro,
        pS1, cogS, petroPoints, petroVals, petrosianIdx, allSome, invInterp, interp,
        fluxPoints, List.range_succ])
    (by norm_num [pS1, cogS])
    (by norm_num [pS1, cogS, List.getLast?_cons_cons])

/-! ## Claim C5: the half-light radius -/

/-- C5: the half-light radius is exactly the fraction-of-flux radius at
fraction 1/2, and whenever it is finite it is a radius at which the
interpolated flux curve equals half the total flux: it is obtained by
inverting the interpolated flux-vs-radius curve, not by picking the nearest
sampled radius. -/
theorem r_half_light_spec (p : Petro) (T : ℚ)
    (hwf : WellFormed p.cog)
    (hT : p.total_flux = some T) :
    p.r_half_light = p.fraction_flux_to_r (1 / 2) ∧
    (∀ r, p.r_half_light = some r →
      interp r (fluxPoints p.cog) = some (1 / 2 * T)) := by
  obtain ⟨halen, hflen, hN, hrch, hach⟩ := hwf
  refine ⟨rfl, ?_⟩
  intro r hr
  have hunf : p.r_half_light = invInterp (1 / 2 * T) (fluxPoints p.cog) := by
    rw [Petro.r_half_light, Petro.fraction_flux_to_r, hT]
    rfl
  rw [hunf] at hr
  exact interp_invInterp (chain_fst_of_map (fluxPoints_map_fst p.cog hflen) hrch) hr

/-- C5 witness: the theorem applied to the scenario profile with
`epsilon = 1`, whose total flux is finite. -/
theorem r_half_light_witness :
    pS1.r_half_light = pS1.fraction_flux_to_r (1 / 2) ∧
    (∀ r, pS1.r_half_light = some r →
      interp r (fluxPoints pS1.cog) = some (1 / 2 * (51533491 / 2074917))) :=
  r_half_light_spec pS1 (51533491 / 2074917)
    (by
      refine ⟨by norm_num [pS1, cogS], by norm_num [pS1, cogS], by norm_num [pS1, cogS], ?_, ?_⟩
      · norm_num [pS1, cogS, List.chain'_cons]
      · norm_num [pS1, cogS, List.chain'_cons])
    (by
      norm_num [Petro.total_flux, Petro.r_total_flux, Petro.r_petrosian, rPetro,
        pS1, cogS, petroPoints, petroVals, petrosianIdx, allSome, invInterp, interp,
        fluxPoints, List.range_succ])

/-! ## Claim C6: monotonicity of the fraction-of-flux radius -/

/-- C6 (amended): for a strictly increasing, concave curve of growth with
positive total flux, the fraction-of-flux radius is monotonically increasing
in the fraction argument wherever both radii are defined. -/
theorem fraction_flux_mono (p : Petro) (T f1 f2 : ℚ)
    (hwf : WellFormed p.cog)
    (hstrict : List.Chain' (· < ·) p.cog.flux_list)
    (_hconc : ConcaveCOG p.cog)
    (hT : p.total_flux = some T) (hTpos : 0 < T)
    (h12 : f1 < f2)
    (h1 : (p.fraction_flux_to_r f1).isSome = true)
    (h2 : (p.fraction_flux_to_r f2).isSome = true) :
    (p.fraction_flux_to_r f1).getD 0 ≤ (p.fraction_flux_to_r f2).getD 0 := by
  obtain ⟨halen, hflen, hN, hrch, hach⟩ := hwf
  obtain ⟨r1, hr1⟩ := Option.isSome_iff_exists.mp h1
  obtain ⟨r2, hr2⟩ := Option.isSome_iff_exists.mp h2
  rw [hr1, hr2, Option.getD_some, Option.getD_some]
  have hu1 : invInterp (f1 * T) (fluxPoints p.cog) = some r1 := by
    rw [Petro.fraction_flux_to_r, hT] at hr1
    exact hr1
  have hu2 : invInterp (f2 * T) (fluxPoints p.cog) = some r2 := by
    rw [Petro.fraction_flux_to_r, hT] at hr2
    exact hr2
  exact invInterp_mono
    (mul_le_mul_of_nonneg_right h12.le hTpos.le)
    (chain_fst_of_map (fluxPoints_map_fst p.cog hflen) hrch)
    (chain_snd_of_map (fluxPoints_map_snd p.cog hflen) hstrict)
    hu1 hu2

/-- C6 counterexample: `cogC` is a well-formed, strictly increasing, concave
curve of growth, yet its total flux is negative and the fraction-of-flux
radius at fraction 4/5 is strictly smaller than at fraction 1/5, refuting
monotonicity as claimed. -/
theorem fraction_flux_mono_cex :
    WellFormed cogC ∧
    List.Chain' (· < ·) cogC.flux_list ∧
    ConcaveCOG cogC ∧
    (1 / 5 : ℚ) < 4 / 5 ∧
    pC.fraction_flux_to_r (1 / 5) = some (997847944 / 366157375) ∧
    pC.fraction_flux_to_r (4 / 5) = some (3618740419 / 1464629500) ∧
    (3618740419 / 1464629500 : ℚ) < 997847944 / 366157375 := by
  refine ⟨?_, ?_, ?_, by norm_num, ?_, ?_, by norm_num⟩
  · refine ⟨by norm_num [cogC], by norm_num [cogC], by norm_num [cogC], ?_, ?_⟩
    · norm_num [cogC, List.chain'_cons]
    · norm_num [cogC, List.chain'_cons]
  · norm_num [cogC, List.chain'_cons]
  · norm_num [ConcaveCOG, slopeList, fluxPoints, cogC, List.chain'_cons]
  · norm_num [Petro.fraction_flux_to_r, Petro.total_flux, Petro.r_total_flux,
      Petro.r_petrosian, rPetro, pC, cogC, petroPoints, petroVals, petrosianIdx,
      allSome, invInterp, interp, fluxPoints, List.range_succ]
  · norm_num [Petro.fraction_flux_to_r, Petro.total_flux, Petro.r_total_flux,
      Petro.r_petrosian, rPetro, pC, cogC, petroPoints, petroVals, petrosianIdx,
      allSome, invInterp, interp, fluxPoints, List.range_succ]

/-- C6 witness: the amended statement applied to the scenario profile with
`epsilon = 1` (positive total flux) at fractions 1/2 and 9/10. -/
theorem fraction_flux_mono_witness :
    (pS1.fraction_flux_to_r (1 / 2)).getD 0 ≤ (pS1.fraction_flux_to_r (9 / 10)).getD 0 :=
  fraction_flux_mono pS1 (51533491 / 2074917) (1 / 2) (9 / 10)
    (by
      refine ⟨by norm_num [pS1, cogS], by norm_num [pS1, cogS], by norm_num [pS1, cogS], ?_, ?_⟩
      · norm_num [pS1, cogS, List.chain'_cons]
      · norm_num [pS1, cogS, List.chain'_cons])
    (by norm_num [pS1, cogS, List.chain'_cons])
    (by norm_num [ConcaveCOG, slopeList, fluxPoints, pS1, cogS, List.chain'_cons])
    (by
      norm_num [Petro.total_flux, Petro.r_total_flux, Petro.r_petrosian, rPetro,
        pS1, cogS, petroPoints, petroVals, petrosianIdx, allSome, invInterp, interp,
        fluxPoints, List.range_succ])
    (by norm_num)
    (by norm_num)
    (by
      norm_num [Petro.fraction_flux_to_r, Petro.total_flux, Petro.r_total_flux,
        Petro.r_petrosian, rPetro, pS1, cogS, petroPoints, petroVals, petrosianIdx,
        allSome, invInterp, interp, fluxPoints, List.range_succ])
    (by
      norm_num [Petro.fraction_flux_to_r, Petro.total_flux, Petro.r_total_flux,
        Petro.r_petrosian, rPetro, pS1, cogS, petroPoints, petroVals, petrosianIdx,
        allSome, invInterp, interp, fluxPoints, List.range_succ])

/-! ## Claim C7: the concentration index -/

/-- C7: for `fraction_2 > fraction_1`, `concentration_index` returns the two
fraction-of-flux radii and the value `5 * log10(r(fraction_2)/r(fraction_1))`;
for `fraction_2 ≤ fraction_1` it signals a configuration error immediately. -/
theorem concentration_index_spec (p : Petro) (f1 f2 : ℚ) :
    (f1 < f2 → ∀ r1 r2, p.fraction_flux_to_r f1 = some r1 →
        p.fraction_flux_to_r f2 = some r2 →
        p.concentration_index f1 f2 =
          .ok (some r1, some r2,
            some (5 * Real.logb 10 ((r2 : ℝ) / (r1 : ℝ))))) ∧
    (f2 ≤ f1 → p.concentration_index f1 f2 = .error .fractionOrder) := by
  constructor
  · intro h12 r1 r2 h1 h2
    rw [Petro.concentration_index, Petro.concentration_radii,
      if_neg (not_le.mpr h12), h1, h2]
  · intro h21
    rw [Petro.concentration_index, Petro.concentration_radii, if_pos h21]

/-- C7 witness: the theorem applied to the scenario profile with
`epsilon = 1` at fractions (1/2, 9/10) and at the swapped, invalid pair. -/
theorem concentration_index_witness :
    pS1.concentration_index (1 / 2) (9 / 10) =
      .ok (some (43233823 / 33198672), some (99269353 / 34581950),
        some (5 * Real.logb 10
          (((99269353 / 34581950 : ℚ) : ℝ) / ((43233823 / 33198672 : ℚ) : ℝ)))) ∧
    pS1.concentration_index (9 / 10) (1 / 2) = .error .fractionOrder := by
  constructor
  · exact (concentration_index_spec pS1 (1 / 2) (9 / 10)).1 (by norm_num)
      (43233823 / 33198672) (99269353 / 34581950)
      (by
        norm_num [Petro.fraction_flux_to_r, Petro.total_flux, Petro.r_total_flux,
          Petro.r_petrosian, rPetro, pS1, cogS, petroPoints, petroVals, petrosianIdx,
          allSome, invInterp, interp, fluxPoints, List.range_succ])
      (by
        norm_num [Petro.fraction_flux_to_r, Petro.total_flux, Petro.r_total_flux,
          Petro.r_petrosian, rPetro, pS1, cogS, petroPoints, petroVals, petrosianIdx,
          allSome, invInterp, interp, fluxPoints, List.range_succ])
  · exact (concentration_index_spec pS1 (9 / 10) (1 / 2)).2 (by norm_num)

/-! ## Claim C8: no stale cached state -/

theorem cacheOk_step (s : PState) (o : POp) (h : CacheOk s) : CacheOk (stepOp s o) := by
  cases o with
  | setEta v => exact Or.inl rfl
  | setEpsilon v => exact Or.inl rfl
  | read =>
    rcases h with h | h
    · right
      simp [stepOp, readDerived, h]
    · right
      simp [stepOp, readDerived, h]

theorem cacheOk_run (ops : List POp) : ∀ (s : PState), CacheOk s → CacheOk (runOps s ops) := by
  induction ops with
  | nil => intro s h; exact h
  | cons o ops ih =>
    intro s h
    rw [runOps, List.foldl_cons]
    exact ih (stepOp s o) (cacheOk_step s o h)

theorem read_fst (s : PState) (h : CacheOk s) :
    (readDerived s).1 = computeDerived s.cog s.eta s.epsilon := by
  rcases h with h | h <;> simp [readDerived, h]

/-- C8: after any sequence of post-construction operations — including
assignments of new `eta` or `epsilon` values — a read of the derived record
returns exactly the pure function of the curve of growth and the current
`eta` and `epsilon`: no read ever observes a stale memoized value. -/
theorem derived_never_stale (c : CurveOfGrowth) (eta eps : ℚ) (ops : List POp) :
    let s := runOps (mkPetrosian c eta eps) ops
    (readDerived s).1 = computeDerived s.cog s.eta s.epsilon ∧
    (readDerived s).1.r_petrosian = (Petro.mk s.cog s.eta s.epsilon).r_petrosian ∧
    (readDerived s).1.r_total_flux = (Petro.mk s.cog s.eta s.epsilon).r_total_flux ∧
    (readDerived s).1.total_flux = (Petro.mk s.cog s.eta s.epsilon).total_flux ∧
    (readDerived s).1.r_half_light = (Petro.mk s.cog s.eta s.epsilon).r_half_light ∧
    (∀ f, (readDerived s).1.fraction_r f =
      (Petro.mk s.cog s.eta s.epsilon).fraction_flux_to_r f) ∧
    (∀ f1 f2, (readDerived s).1.conc_radii f1 f2 =
      (Petro.mk s.cog s.eta s.epsilon).concentration_radii f1 f2) := by
  intro s
  have h : (readDerived s).1 = computeDerived s.cog s.eta s.epsilon :=
    read_fst s (cacheOk_run ops (mkPetrosian c eta eps) (Or.inl rfl))
  refine ⟨h, ?_, ?_, ?_, ?_, ?_, ?_⟩
  · rw [h]; rfl
  · rw [h]; rfl
  · rw [h]; rfl
  · rw [h]; rfl
  · intro f; rw [h]; rfl
  · intro f1 f2; rw [h]; rfl

/-! ## Claim C10: shallow copies are independent -/

/-- C10: starting from any reachable profile state, making a shallow copy
and assigning new `eta` and `epsilon` values on the copy shares the
underlying curve-of-growth data with the original, gives the copy the new
parameters, makes the copy's reads reflect the new parameters — and leaves
the original's parameters and every derived quantity read from it exactly as
before. -/
theorem copy_independent (c : CurveOfGrowth) (eta eps : ℚ) (ops : List POp) (v w : ℚ) :
    let s := runOps (mkPetrosian c eta eps) ops
    let s2 := stepOp (stepOp (copyP s) (POp.setEta v)) (POp.setEpsilon w)
    s2.cog = s.cog ∧
    s2.eta = v ∧
    s2.epsilon = w ∧
    s.eta = (runOps (mkPetrosian c eta eps) ops).eta ∧
    s.epsilon = (runOps (mkPetrosian c eta eps) ops).epsilon ∧
    (readDerived s2).1 = computeDerived s.cog v w ∧
    (readDerived s).1 = computeDerived s.cog s.eta s.epsilon := by
  intro s s2
  refine ⟨rfl, rfl, rfl, rfl, rfl, rfl, ?_⟩
  exact read_fst s (cacheOk_run ops (mkPetrosian c eta eps) (Or.inl rfl))

/-! ## Claim C9: correction-grid estimation clamps at the edges -/

theorem closestEntry_isSome (ci : ℚ) :
    ∀ {es : List (ℚ × ℚ × ℚ)}, es ≠ [] → (closestEntry ci es).isSome = true := by
  intro es
  induction es with
  | nil => intro h; exact absurd rfl h
  | cons e rest ih =>
    intro _
    cases h : closestEntry ci rest with
    | none => simp [closestEntry, h]
    | some b =>
      by_cases hc : |e.2.1 - ci| ≤ |b.2.1 - ci| <;> simp [closestEntry, h, hc]

theorem estimateRows_above (sel : ℚ × ℚ × ℚ → ℚ) (q ci : ℚ) :
    ∀ (rest : List GridRow) (row ql : GridRow),
      (row :: rest).getLast? = some ql → (∀ nr ∈ rest, nr.r_eff < q) →
      estimateRows sel row rest q ci = rowEstimate sel ql ci := by
  intro rest
  induction rest with
  | nil =>
    intro row ql hlast _
    simp at hlast
    rw [← hlast]
    rfl
  | cons next rest2 ih =>
    intro row ql hlast hall
    have hnext : next.r_eff < q := hall next (List.mem_cons_self _ _)
    simp only [estimateRows]
    rw [if_neg (not_le.mpr hnext), List.getLast?_cons_cons] at *
    exact ih next ql hlast (fun nr hnr => hall nr (List.mem_cons_of_mem _ hnr))

/-- C9: grid estimation never fails on out-of-domain queries: a query below
the first sampled `r_eff` row is clamped to that edge row (and yields a value
whenever the row has entries), and a query above every sampled row is clamped
to the last row; in both cases the result equals the single-row estimate at
that edge. -/
theorem grid_clamp_spec (g : PetrosianCorrection) (first : GridRow)
    (rest : List GridRow) (q ci : ℚ) (hrows : g.rows = first :: rest) :
    (q < first.r_eff →
      estimate_epsilon g q ci = rowEstimate (fun e => e.2.2) first ci ∧
      estimate_n g q ci = rowEstimate (fun e => e.1) first ci ∧
      (first.entries ≠ [] →
        (estimate_epsilon g q ci).isSome = true ∧
        (estimate_n g q ci).isSome = true)) ∧
    (∀ ql, (first :: rest).getLast? = some ql →
      (∀ nr ∈ first :: rest, nr.r_eff < q) →
      estimate_epsilon g q ci = rowEstimate (fun e => e.2.2) ql ci ∧
      estimate_n g q ci = rowEstimate (fun e => e.1) ql ci) := by
  constructor
  · intro hq
    have h1 : estimate_epsilon g q ci = rowEstimate (fun e => e.2.2) first ci := by
      rw [estimate_epsilon, estimateVal, hrows]
      simp only [if_pos hq.le]
    have h2 : estimate_n g q ci = rowEstimate (fun e => e.1) first ci := by
      rw [estimate_n, estimateVal, hrows]
      simp only [if_pos hq.le]
    refine ⟨h1, h2, ?_⟩
    intro hent
    have hsome := closestEntry_isSome ci hent
    constructor
    · rw [h1, rowEstimate]
      cases hce : closestEntry ci first.entries with
      | none => rw [hce] at hsome; simp at hsome
      | some b => simp [hce]
    · rw [h2, rowEstimate]
      cases hce : closestEntry ci first.entries with
      | none => rw [hce] at hsome; simp at hsome
      | some b => simp [hce]
  · intro ql hlast hall
    have hfirst : first.r_eff < q := hall first (List.mem_cons_self _ _)
    have htail : ∀ nr ∈ rest, nr.r_eff < q :=
      fun nr hnr => hall nr (List.mem_cons_of_mem _ hnr)
    cases rest with
    | nil =>
      simp at hlast
      constructor
      · simp only [estimate_epsilon, estimateVal, hrows]
        rw [if_neg (not_le.mpr hfirst), ← hlast]
        rfl
      · simp only [estimate_n, estimateVal, hrows]
        rw [if_neg (not_le.mpr hfirst), ← hlast]
        rfl
    | cons second rest2 =>
      rw [List.getLast?_cons_cons] at hlast
      constructor
      · simp only [estimate_epsilon, estimateVal, hrows]
        rw [if_neg (not_le.mpr hfirst)]
        exact estimateRows_above _ q ci (second :: rest2) first ql hlast htail
      · simp only [estimate_n, estimateVal, hrows]
        rw [if_neg (not_le.mpr hfirst)]
        exact estimateRows_above _ q ci (second :: rest2) first ql hlast htail

/-- C9 witness: the theorem applied to the example grid sampled at
`r_eff = 15, 20, 25`, queried at `r_half_light = 10` (below the minimum
sampled row) with concentration index 3. -/
theorem grid_clamp_witness :
    estimate_epsilon gridG 10 3 =
      rowEstimate (fun e => e.2.2) ⟨15, [(1, 5 / 2, 3 / 2), (2, 3, 2), (4, 4, 7 / 2)]⟩ 3 ∧
    estimate_n gridG 10 3 =
      rowEstimate (fun e => e.1) ⟨15, [(1, 5 / 2, 3 / 2), (2, 3, 2), (4, 4, 7 / 2)]⟩ 3 ∧
    (estimate_epsilon gridG 10 3).isSome = true ∧
    (estimate_n gridG 10 3).isSome = true := by
  obtain ⟨hlow, _⟩ := grid_clamp_spec gridG
    ⟨15, [(1, 5 / 2, 3 / 2), (2, 3, 2), (4, 4, 7 / 2)]⟩
    [⟨20, [(1, 13 / 5, 8 / 5), (2, 16 / 5, 21 / 10), (4, 21 / 5, 18 / 5)]⟩,
     ⟨25, [(1, 27 / 10, 17 / 10), (2, 33 / 10, 11 / 5), (4, 22 / 5, 37 / 10)]⟩]
    10 3 rfl
  obtain ⟨h1, h2, h3⟩ := hlow (by norm_num)
  obtain ⟨h4, h5⟩ := h3 (by simp)
  exact ⟨h1, h2, h4, h5⟩
